import Mathlib

/-!
Verification of the ingress-frontend-zeroconf reconciler
(src/ingress-frontend-zeroconf.go) against its natural-language
specification.  The Go program is shallowly embedded: the Kubernetes
Ingress object becomes a Lean structure, the hostname extractor and the
register/unregister loops become Lean functions, the mutable map of
zeroconf servers becomes an association list threaded through an explicit
world state, and panics (out-of-range indexing) become Option.none.
Calls into the external zeroconf library are recorded in a trace; whether
a register call succeeds is supplied by an oracle.
-/

namespace IngressZeroconf

/-- Go struct LocalHostname (lines 28-31): an Ingress hostname in the
.local domain, tagged with whether the Ingress has a TLS block. -/
structure LocalHostname where
  TLS : Bool
  Hostname : String
deriving DecidableEq

/-- One rule of an Ingress spec; the program only reads its Host field. -/
structure IngressRule where
  host : String
deriving DecidableEq

/-- One TLS configuration block of an Ingress spec; the program never
reads its content, only whether the list of blocks is nil. -/
structure IngressTLS where
  secretName : String
deriving DecidableEq

/-- One entry of the load-balancer status list; only its IP is read. -/
structure LoadBalancerIngress where
  ip : String
deriving DecidableEq

structure LoadBalancerStatus where
  ingress : List LoadBalancerIngress
deriving DecidableEq

structure IngressStatus where
  loadBalancer : LoadBalancerStatus
deriving DecidableEq

/-- The tls field is an Option so that the Go distinction between a nil
slice (none) and a present, possibly empty slice (some l) is kept: line
198 of the source tests Spec.TLS != nil, not emptiness. -/
structure IngressSpec where
  tls : Option (List IngressTLS)
  rules : List IngressRule
deriving DecidableEq

structure Ingress where
  name : String
  spec : IngressSpec
  status : IngressStatus
deriving DecidableEq

/-- Go strings.HasSuffix s p: p is a suffix of s (character-wise; the
suffix used by the program is plain ASCII, so this agrees with Go's
byte-wise test). -/
def strEndsWith (s p : String) : Bool :=
  p.data.isSuffixOf s.data

/-- Go strings.TrimSuffix s p: when p is a suffix of s, the result keeps
the first len s - len p characters of s; otherwise s is unchanged. -/
def strTrimSuffix (s p : String) : String :=
  if strEndsWith s p then String.mk (s.data.take (s.data.length - p.data.length)) else s

/-- Split a character list on the dot separator. -/
def splitOnDot : List Char → List (List Char)
  | [] => [[]]
  | c :: rest =>
    if c = '.' then [] :: splitOnDot rest
    else
      match splitOnDot rest with
      | [] => [[c]]
      | g :: gs => (c :: g) :: gs

/-- Decimal value of a digit list. -/
def natOfDigits (cs : List Char) : Nat :=
  cs.foldl (fun n c => n * 10 + (c.toNat - 48)) 0

/-- Model of the external net.ParseIP (Go standard library, not code of
this repository): none models Go nil for a string that is not a valid
address.  Only dotted-quad IPv4 is modelled; no claim depends on the
exact set of accepted strings. -/
def isIPv4Part (p : List Char) : Bool :=
  !p.isEmpty && p.all Char.isDigit && natOfDigits p ≤ 255

/-- Model of the external net.ParseIP, see isIPv4Part. -/
def parseIP (s : String) : Option String :=
  let parts := splitOnDot s.data
  if parts.length = 4 && parts.all isIPv4Part then some s else none

/-- Go (net.IP).String(): the nil IP prints as the sentinel string. -/
def ipString : Option String → String
  | none => "<nil>"
  | some s => s

/-- Line 198 of the source: tls := ingress.Spec.TLS != nil. -/
def ingressTLSFlag (ingress : Ingress) : Bool :=
  ingress.spec.tls.isSome

/-- The loop of lines 200-206: keep each rule host that ends in ".local",
strip the suffix, and tag it with the Ingress-wide TLS flag. -/
def extractRuleHostnames (tls : Bool) : List IngressRule → List LocalHostname
  | [] => []
  | rule :: rest =>
    if strEndsWith rule.host ".local" then
      ⟨tls, strTrimSuffix rule.host ".local"⟩ :: extractRuleHostnames tls rest
    else
      extractRuleHostnames tls rest

/-- Go getIngressHostnames (lines 194-209).  The unconditional index
ingress.Status.LoadBalancer.Ingress[0] on line 207 panics when the
status list is empty; the panic is modelled as none. -/
def getIngressHostnames (ingress : Ingress) : Option (List LocalHostname × Option String) :=
  let tls := ingressTLSFlag ingress
  let hostnames := extractRuleHostnames tls ingress.spec.rules
  match ingress.status.loadBalancer.ingress with
  | [] => none
  | entry :: _ => some (hostnames, parseIP entry.ip)

/-- Modelled from the spec's words (section 8): exactly the rule hosts
ending in the local suffix, suffix stripped, each tagged with the
Ingress-wide TLS flag.  Used to compare the extractor against the spec. -/
def specExtractHostnames (ingress : Ingress) : List LocalHostname :=
  ingress.spec.rules.filterMap fun rule =>
    if strEndsWith rule.host ".local" then
      some ⟨ingressTLSFlag ingress, strTrimSuffix rule.host ".local"⟩
    else none

/-- Modelled from the spec's words: the Spec.TLS list is non-empty (a nil
list counts as empty).  Used to compare the TLS flag against the spec. -/
def specTLSNonempty (ingress : Ingress) : Bool :=
  !(ingress.spec.tls.getD []).isEmpty

/- Concrete fixtures used by counterexamples and witnesses. -/

/-- An Ingress with one matching rule host and an empty load-balancer
status list. -/
def ingNoStatus : Ingress :=
  ⟨"svc", ⟨none, [⟨"svc.local"⟩]⟩, ⟨⟨[]⟩⟩⟩

/-- An Ingress with one matching rule host, an empty load-balancer status
list and a second, non-matching rule host. -/
def ingC5 : Ingress :=
  ⟨"c5", ⟨none, [⟨"foo.local"⟩, ⟨"bar.example.com"⟩]⟩, ⟨⟨[]⟩⟩⟩

/-- An Ingress whose tls field is a present but empty list (Go: a non-nil
empty slice). -/
def ingC6 : Ingress :=
  ⟨"c6", ⟨some [], [⟨"foo.local"⟩]⟩, ⟨⟨[⟨"10.0.0.6"⟩]⟩⟩⟩

/- The reconciliation loop.  The mutable Go map of zeroconf servers is an
association list from LocalHostname to an opaque handle (a Nat drawn from
a fresh-handle counter), and every call into the zeroconf library is
recorded in a trace. -/

/-- One call into the external zeroconf library, as observed at the call
sites of lines 159-168 (RegisterProxy) and 181/190 (Shutdown). -/
inductive AdvCall where
  | registerOK (key : LocalHostname) (port : Nat) (ip : String) (handle : Nat)
  | registerFail (key : LocalHostname) (port : Nat) (ip : String)
  | shutdown (handle : Nat)
deriving DecidableEq

/-- The state threaded through the event handlers: the servers map (Go
map[LocalHostname]*zeroconf.Server, line 68), a fresh-handle counter and
the trace of zeroconf calls. -/
structure World where
  servers : List (LocalHostname × Nat)
  nextHandle : Nat
  trace : List AdvCall
deriving DecidableEq

def emptyWorld : World := ⟨[], 0, []⟩

/-- Go map read m[k]: the value stored for key k, if any. -/
def mapGet : List (LocalHostname × Nat) → LocalHostname → Option Nat
  | [], _ => none
  | (k2, v) :: rest, k => if k2 = k then some v else mapGet rest k

/-- Go map write m[k] = v: replace the entry for k, or append one. -/
def mapInsert : List (LocalHostname × Nat) → LocalHostname → Nat → List (LocalHostname × Nat)
  | [], k, v => [(k, v)]
  | (k2, v2) :: rest, k, v =>
    if k2 = k then (k, v) :: rest else (k2, v2) :: mapInsert rest k v

/-- Go delete(m, k): remove the entry for k, if any. -/
def mapErase : List (LocalHostname × Nat) → LocalHostname → List (LocalHostname × Nat)
  | [], _ => []
  | (k2, v2) :: rest, k =>
    if k2 = k then rest else (k2, v2) :: mapErase rest k

/-- The association list represents a map: keys occur at most once. -/
def nodupKeys (s : List (LocalHostname × Nat)) : Prop :=
  (s.map Prod.fst).Nodup

/-- Lines 154-158 of the source: port 443 for a TLS hostname, else 80. -/
def portOf (lh : LocalHostname) : Nat :=
  if lh.TLS then 443 else 80

/-- Go registerHostnames (lines 147-175): for each hostname, call
RegisterProxy; on failure log and continue, on success store the handle,
overwriting any entry already present.  Whether a call succeeds is given
by the oracle ok; a fresh handle is drawn from the counter. -/
def registerHostnames (ok : LocalHostname → Bool) (ingressIP : Option String) :
    List LocalHostname → World → World
  | [], w => w
  | lh :: rest, w =>
    if ok lh then
      registerHostnames ok ingressIP rest
        { servers := mapInsert w.servers lh w.nextHandle
          nextHandle := w.nextHandle + 1
          trace := w.trace ++ [AdvCall.registerOK lh (portOf lh) (ipString ingressIP) w.nextHandle] }
    else
      registerHostnames ok ingressIP rest
        { w with trace := w.trace ++ [AdvCall.registerFail lh (portOf lh) (ipString ingressIP)] }

/-- Go unregisterHostnames (lines 177-185): for each hostname present in
the map, shut its server down and remove the entry; absent hostnames are
skipped without any call. -/
def unregisterHostnames : List LocalHostname → World → World
  | [], w => w
  | lh :: rest, w =>
    match mapGet w.servers lh with
    | some handle =>
      unregisterHostnames rest
        { servers := mapErase w.servers lh
          nextHandle := w.nextHandle
          trace := w.trace ++ [AdvCall.shutdown handle] }
    | none => unregisterHostnames rest w

/-- The loop body of Go unregisterAllHostnames (lines 187-192): one
Shutdown call per stored entry, in iteration order. -/
def shutdownAll : List (LocalHostname × Nat) → List AdvCall
  | [] => []
  | (_, handle) :: rest => AdvCall.shutdown handle :: shutdownAll rest

/-- Go unregisterAllHostnames: shuts every stored server down; the map
itself is not cleared (the process is about to exit). -/
def unregisterAllHostnames (w : World) : World :=
  { w with trace := w.trace ++ shutdownAll w.servers }

/-- Go AddFunc (lines 73-76): extract, then register.  A panic of the
extractor (empty status list) propagates, modelled as none. -/
def addFunc (ok : LocalHostname → Bool) (obj : Ingress) (w : World) : Option World :=
  match getIngressHostnames obj with
  | none => none
  | some (hostnames, ingressIP) => some (registerHostnames ok ingressIP hostnames w)

/-- Go DeleteFunc (lines 77-80): extract (IP unused), then unregister. -/
def deleteFunc (obj : Ingress) (w : World) : Option World :=
  match getIngressHostnames obj with
  | none => none
  | some (hostnames, _) => some (unregisterHostnames hostnames w)

/-- Go UpdateFunc (lines 81-91).  Line 83 reads oldObj for newIngress as
well (newIngress := oldObj.(*v1beta1.Ingress)), so both hostname lists
are extracted from the old object; the comparison on line 86 is
reflect.DeepEqual on the two lists, order-sensitively. -/
def updateFunc (ok : LocalHostname → Bool) (oldObj newObj : Ingress) (w : World) : Option World :=
  let oldIngress := oldObj
  let newIngress := oldObj
  match getIngressHostnames oldIngress with
  | none => none
  | some (oldHostnames, _) =>
    match getIngressHostnames newIngress with
    | none => none
    | some (newHostnames, ingressIP) =>
      if oldHostnames ≠ newHostnames then
        some (registerHostnames ok ingressIP newHostnames (unregisterHostnames oldHostnames w))
      else
        some w

/-- One watch event, as delivered by the informer (lines 72-92). -/
inductive WatchEvent where
  | add (obj : Ingress)
  | update (oldObj newObj : Ingress)
  | delete (obj : Ingress)
deriving DecidableEq

def stepEvent (ok : LocalHostname → Bool) : WatchEvent → World → Option World
  | WatchEvent.add obj, w => addFunc ok obj w
  | WatchEvent.update o n, w => updateFunc ok o n w
  | WatchEvent.delete obj, w => deleteFunc obj w

/-- The serialized event loop: events processed one at a time, in
delivery order; a crash (none) stops the run. -/
def runEvents (ok : LocalHostname → Bool) : List WatchEvent → World → Option World
  | [], w => some w
  | e :: es, w =>
    match stepEvent ok e w with
    | none => none
    | some w2 => runEvents ok es w2

/-- The oracle under which every register call succeeds. -/
def okTrue : LocalHostname → Bool := fun _ => true

/-- Number of successful register calls for a given key in a trace. -/
def regOKCountKey (tr : List AdvCall) (k : LocalHostname) : Nat :=
  tr.countP fun c => match c with
    | AdvCall.registerOK k2 _ _ _ => k2 == k
    | _ => false

/-- Number of shutdown calls for a given handle in a trace. -/
def sdCount (tr : List AdvCall) (h : Nat) : Nat :=
  tr.countP fun c => c == AdvCall.shutdown h

/-- Number of entries stored for a given key. -/
def countKey (s : List (LocalHostname × Nat)) (k : LocalHostname) : Nat :=
  s.countP fun p => p.1 == k

/- Fixtures for the reconciliation claims. -/

def ingA : Ingress := ⟨"a", ⟨none, [⟨"a.local"⟩]⟩, ⟨⟨[⟨"10.0.0.1"⟩]⟩⟩⟩

def ingB : Ingress := ⟨"b", ⟨none, [⟨"b.local"⟩]⟩, ⟨⟨[⟨"10.0.0.1"⟩]⟩⟩⟩

def ingDB : Ingress := ⟨"db", ⟨none, [⟨"db.local"⟩]⟩, ⟨⟨[⟨"10.0.0.2"⟩]⟩⟩⟩

def keyDB : LocalHostname := ⟨false, "db"⟩

/-- An oracle failing exactly on the hostname bad. -/
def okNotBad : LocalHostname → Bool := fun lh => lh.Hostname != "bad"

def keyBad : LocalHostname := ⟨false, "bad"⟩

def keyGood : LocalHostname := ⟨false, "good"⟩

/- Basic facts about the string helpers and the extractor. -/

theorem strEndsWith_append (t p : String) : strEndsWith (t ++ p) p = true := by
  have hdata : (t ++ p).data = t.data ++ p.data := rfl
  simp only [strEndsWith, hdata, List.isSuffixOf_iff_suffix]
  exact List.suffix_append t.data p.data

theorem strTrimSuffix_append (t p : String) : strTrimSuffix (t ++ p) p = t := by
  have hdata : (t ++ p).data = t.data ++ p.data := rfl
  simp only [strTrimSuffix, strEndsWith_append, if_true, hdata, List.length_append]
  have hlen : t.data.length + p.data.length - p.data.length = t.data.length := by omega
  rw [hlen, List.take_left]

theorem extractRuleHostnames_eq_filterMap (tls : Bool) (rules : List IngressRule) :
    extractRuleHostnames tls rules = rules.filterMap fun rule =>
      if strEndsWith rule.host ".local" then
        some ⟨tls, strTrimSuffix rule.host ".local"⟩
      else none := by
  induction rules with
  | nil => rfl
  | cons rule rest ih =>
    by_cases h : strEndsWith rule.host ".local" = true
    · simp [extractRuleHostnames, h, List.filterMap_cons, ih]
    · simp [extractRuleHostnames, h, List.filterMap_cons, ih]

/- Claims about the extractor. -/

/-- C3: the claim says the extractor never crashes, returning the
extracted hostnames with an empty or sentinel IP even for an absent
load-balancer status.  The code indexes the status list unconditionally,
so on an Ingress with an empty status list it panics (modelled as none)
and the hostnames that were extracted are lost. -/
theorem C3_extractor_crashes_on_empty_status :
    getIngressHostnames ingNoStatus = none ∧
    specExtractHostnames ingNoStatus = [⟨false, "svc"⟩] := by
  constructor <;> rfl

/-- C5 counterexample: the claim quantifies over every Ingress object, but
on an Ingress with an empty load-balancer status list the extractor
returns nothing at all (it panics), although a rule host ending in the
local suffix is present. -/
theorem C5_counterexample :
    getIngressHostnames ingC5 = none ∧
    specExtractHostnames ingC5 = [⟨false, "foo"⟩] := by
  constructor <;> rfl

/-- C5 amended: for every Ingress whose load-balancer status list is
non-empty, the extractor returns exactly the rule hosts ending in the
local suffix, suffix stripped, each tagged with the Ingress-wide TLS
flag; hosts not ending in the suffix are excluded. -/
theorem C5_extractor_exact (i : Ingress)
    (h : i.status.loadBalancer.ingress ≠ []) :
    ∃ ip, getIngressHostnames i = some (specExtractHostnames i, ip) := by
  rcases hm : i.status.loadBalancer.ingress with _ | ⟨entry, rest⟩
  · exact absurd hm h
  · refine ⟨parseIP entry.ip, ?_⟩
    simp only [getIngressHostnames, specExtractHostnames, hm,
      extractRuleHostnames_eq_filterMap]

/-- C5 witness: the amended theorem applied to a concrete Ingress. -/
theorem C5_extractor_exact_witness :
    ∃ ip, getIngressHostnames ingC6 = some (specExtractHostnames ingC6, ip) :=
  C5_extractor_exact ingC6 (by decide)

/-- C6 counterexample: on an Ingress whose tls field is a present but
empty list (Go: non-nil empty slice), the computed flag is true although
the TLS list is empty, refuting the claimed equivalence with
non-emptiness. -/
theorem C6_counterexample :
    ingressTLSFlag ingC6 = true ∧ specTLSNonempty ingC6 = false := by
  constructor <;> rfl

/-- C6 amended: the TLS flag is true iff the Spec.TLS field is non-nil;
it is independent of the rules; and it agrees with the spec's
non-emptiness reading whenever the field is not a present-but-empty
list. -/
theorem C6_tls_flag (i : Ingress) :
    (ingressTLSFlag i = true ↔ i.spec.tls ≠ none) ∧
    (∀ rules2, ingressTLSFlag ⟨i.name, ⟨i.spec.tls, rules2⟩, i.status⟩ = ingressTLSFlag i) ∧
    (i.spec.tls ≠ some [] → (ingressTLSFlag i = specTLSNonempty i)) := by
  refine ⟨?_, fun _ => rfl, ?_⟩
  · cases h : i.spec.tls <;> simp [ingressTLSFlag, h]
  · intro hne
    cases h : i.spec.tls with
    | none => simp [ingressTLSFlag, specTLSNonempty, h]
    | some l =>
      cases l with
      | nil => exact absurd h hne
      | cons b bs => simp [ingressTLSFlag, specTLSNonempty, h]

/-- C6 witness: the amended theorem applied to a concrete Ingress. -/
theorem C6_tls_flag_witness :
    (ingressTLSFlag ingNoStatus = true ↔ ingNoStatus.spec.tls ≠ none) ∧
    ingressTLSFlag ingNoStatus = specTLSNonempty ingNoStatus := by
  have h := C6_tls_flag ingNoStatus
  exact ⟨h.1, h.2.2 (by decide)⟩

/-- C10: strings.TrimSuffix strips exactly one trailing occurrence of the
local suffix: every host of the form t ++ ".local" is accepted and
yields the bare name t, so a host such as "x.local.local" yields
"x.local", a bare name that itself still ends in ".local". -/
theorem C10_strip_single_suffix (t : String) (tls : Bool) :
    strEndsWith (t ++ ".local") ".local" = true ∧
    strTrimSuffix (t ++ ".local") ".local" = t ∧
    extractRuleHostnames tls [⟨"x.local.local"⟩] = [⟨tls, "x.local"⟩] := by
  refine ⟨strEndsWith_append t ".local", strTrimSuffix_append t ".local", ?_⟩
  cases tls <;> rfl

/- Association-list map lemmas. -/

theorem mapGet_cons_eq {k : LocalHostname} {v : Nat} {rest : List (LocalHostname × Nat)} :
    mapGet ((k, v) :: rest) k = some v := by
  simp [mapGet]

theorem mapGet_cons_ne {k2 k : LocalHostname} {v : Nat} {rest : List (LocalHostname × Nat)}
    (h : k2 ≠ k) : mapGet ((k2, v) :: rest) k = mapGet rest k := by
  simp [mapGet, h]

theorem mapInsert_cons_eq {k : LocalHostname} {v2 v : Nat} {rest : List (LocalHostname × Nat)} :
    mapInsert ((k, v2) :: rest) k v = (k, v) :: rest := by
  simp [mapInsert]

theorem mapInsert_cons_ne {k2 k : LocalHostname} {v2 v : Nat} {rest : List (LocalHostname × Nat)}
    (h : k2 ≠ k) : mapInsert ((k2, v2) :: rest) k v = (k2, v2) :: mapInsert rest k v := by
  simp [mapInsert, h]

theorem mapErase_cons_eq {k : LocalHostname} {v : Nat} {rest : List (LocalHostname × Nat)} :
    mapErase ((k, v) :: rest) k = rest := by
  simp [mapErase]

theorem mapErase_cons_ne {k2 k : LocalHostname} {v : Nat} {rest : List (LocalHostname × Nat)}
    (h : k2 ≠ k) : mapErase ((k2, v) :: rest) k = (k2, v) :: mapErase rest k := by
  simp [mapErase, h]

theorem mapGet_insert_self (s : List (LocalHostname × Nat)) (k : LocalHostname) (v : Nat) :
    mapGet (mapInsert s k v) k = some v := by
  induction s with
  | nil => simp [mapInsert, mapGet]
  | cons p rest ih =>
    obtain ⟨k2, v2⟩ := p
    by_cases h : k2 = k
    · subst h
      rw [mapInsert_cons_eq, mapGet_cons_eq]
    · rw [mapInsert_cons_ne h, mapGet_cons_ne h]
      exact ih

theorem mapGet_insert_ne (s : List (LocalHostname × Nat)) (k k2 : LocalHostname) (v : Nat)
    (h : k2 ≠ k) : mapGet (mapInsert s k v) k2 = mapGet s k2 := by
  induction s with
  | nil =>
    show mapGet [(k, v)] k2 = mapGet [] k2
    rw [mapGet_cons_ne (Ne.symm h)]
  | cons p rest ih =>
    obtain ⟨k3, v3⟩ := p
    by_cases h3 : k3 = k
    · subst h3
      rw [mapInsert_cons_eq, mapGet_cons_ne (Ne.symm h), mapGet_cons_ne (Ne.symm h)]
    · rw [mapInsert_cons_ne h3]
      by_cases h4 : k3 = k2
      · subst h4
        rw [mapGet_cons_eq, mapGet_cons_eq]
      · rw [mapGet_cons_ne h4, mapGet_cons_ne h4]
        exact ih

theorem mem_mapInsert (s : List (LocalHostname × Nat)) (k : LocalHostname) (v : Nat)
    (p : LocalHostname × Nat) (hp : p ∈ mapInsert s k v) : p ∈ s ∨ p = (k, v) := by
  induction s with
  | nil =>
    simp only [mapInsert, List.mem_singleton] at hp
    exact Or.inr hp
  | cons q rest ih =>
    obtain ⟨k2, v2⟩ := q
    by_cases h : k2 = k
    · subst h
      rw [mapInsert_cons_eq] at hp
      rcases List.mem_cons.mp hp with hp | hp
      · exact Or.inr hp
      · exact Or.inl (List.mem_cons_of_mem _ hp)
    · rw [mapInsert_cons_ne h] at hp
      rcases List.mem_cons.mp hp with hp | hp
      · exact Or.inl (by rw [hp]; exact List.mem_cons_self _ _)
      · rcases ih hp with hh | hh
        · exact Or.inl (List.mem_cons_of_mem _ hh)
        · exact Or.inr hh

theorem keys_mapInsert (s : List (LocalHostname × Nat)) (k : LocalHostname) (v : Nat)
    (x : LocalHostname) (hx : x ∈ (mapInsert s k v).map Prod.fst) :
    x ∈ s.map Prod.fst ∨ x = k := by
  rcases List.mem_map.mp hx with ⟨p, hp, hpx⟩
  rcases mem_mapInsert s k v p hp with h | h
  · exact Or.inl (hpx ▸ List.mem_map_of_mem _ h)
  · subst h
    exact Or.inr hpx.symm

theorem nodupKeys_mapInsert (s : List (LocalHostname × Nat)) (k : LocalHostname) (v : Nat)
    (h : nodupKeys s) : nodupKeys (mapInsert s k v) := by
  induction s with
  | nil => simp [mapInsert, nodupKeys]
  | cons p rest ih =>
    obtain ⟨k2, v2⟩ := p
    simp only [nodupKeys, List.map_cons, List.nodup_cons] at h
    by_cases hk : k2 = k
    · subst hk
      rw [mapInsert_cons_eq]
      simp only [nodupKeys, List.map_cons, List.nodup_cons]
      exact h
    · rw [mapInsert_cons_ne hk]
      simp only [nodupKeys, List.map_cons, List.nodup_cons]
      refine ⟨fun hmem => ?_, ih h.2⟩
      rcases keys_mapInsert rest k v k2 hmem with hh | hh
      · exact h.1 hh
      · exact hk hh

theorem sndNodup_mapInsert (s : List (LocalHostname × Nat)) (k : LocalHostname) (v : Nat)
    (h : (s.map Prod.snd).Nodup) (hb : ∀ p ∈ s, p.2 < v) :
    ((mapInsert s k v).map Prod.snd).Nodup := by
  induction s with
  | nil => simp [mapInsert]
  | cons p rest ih =>
    obtain ⟨k2, v2⟩ := p
    simp only [List.map_cons, List.nodup_cons] at h
    by_cases hk : k2 = k
    · subst hk
      rw [mapInsert_cons_eq]
      simp only [List.map_cons, List.nodup_cons]
      refine ⟨fun hmem => ?_, h.2⟩
      rcases List.mem_map.mp hmem with ⟨q, hq, hqv⟩
      have : q.2 < v := hb q (List.mem_cons_of_mem _ hq)
      omega
    · rw [mapInsert_cons_ne hk]
      simp only [List.map_cons, List.nodup_cons]
      refine ⟨fun hmem => ?_, ih h.2 (fun q hq => hb q (List.mem_cons_of_mem _ hq))⟩
      rcases List.mem_map.mp hmem with ⟨q, hq, hqv⟩
      rcases mem_mapInsert rest k v q hq with hh | hh
      · exact h.1 (hqv ▸ List.mem_map_of_mem _ hh)
      · have hv2 : v2 < v := hb (k2, v2) (List.mem_cons_self _ _)
        rw [hh] at hqv
        simp only at hqv
        omega

theorem mapErase_sublist (s : List (LocalHostname × Nat)) (k : LocalHostname) :
    List.Sublist (mapErase s k) s := by
  induction s with
  | nil => exact List.Sublist.refl _
  | cons p rest ih =>
    obtain ⟨k2, v2⟩ := p
    by_cases h : k2 = k
    · subst h
      rw [mapErase_cons_eq]
      exact List.sublist_cons_self _ _
    · rw [mapErase_cons_ne h]
      exact List.Sublist.cons₂ _ ih

theorem mapGet_erase_ne (s : List (LocalHostname × Nat)) (k k2 : LocalHostname)
    (h : k2 ≠ k) : mapGet (mapErase s k) k2 = mapGet s k2 := by
  induction s with
  | nil => rfl
  | cons p rest ih =>
    obtain ⟨k3, v3⟩ := p
    by_cases h3 : k3 = k
    · subst h3
      rw [mapErase_cons_eq, mapGet_cons_ne (Ne.symm h)]
    · rw [mapErase_cons_ne h3]
      by_cases h4 : k3 = k2
      · subst h4
        rw [mapGet_cons_eq, mapGet_cons_eq]
      · rw [mapGet_cons_ne h4, mapGet_cons_ne h4]
        exact ih

theorem mapGet_eq_none_of_not_mem (s : List (LocalHostname × Nat)) (k : LocalHostname)
    (h : k ∉ s.map Prod.fst) : mapGet s k = none := by
  induction s with
  | nil => rfl
  | cons p rest ih =>
    obtain ⟨k2, v2⟩ := p
    simp only [List.map_cons, List.mem_cons] at h
    push_neg at h
    rw [mapGet_cons_ne (Ne.symm h.1)]
    exact ih h.2

theorem mapGet_erase_self (s : List (LocalHostname × Nat)) (k : LocalHostname)
    (h : nodupKeys s) : mapGet (mapErase s k) k = none := by
  induction s with
  | nil => rfl
  | cons p rest ih =>
    obtain ⟨k2, v2⟩ := p
    simp only [nodupKeys, List.map_cons, List.nodup_cons] at h
    by_cases hk : k2 = k
    · subst hk
      rw [mapErase_cons_eq]
      exact mapGet_eq_none_of_not_mem rest k2 h.1
    · rw [mapErase_cons_ne hk, mapGet_cons_ne hk]
      exact ih h.2

theorem mapGet_mem (s : List (LocalHostname × Nat)) (k : LocalHostname) (v : Nat)
    (h : mapGet s k = some v) : (k, v) ∈ s := by
  induction s with
  | nil => simp [mapGet] at h
  | cons p rest ih =>
    obtain ⟨k2, v2⟩ := p
    by_cases h2 : k2 = k
    · subst h2
      rw [mapGet_cons_eq] at h
      injection h with hv
      rw [← hv]
      exact List.mem_cons_self _ _
    · rw [mapGet_cons_ne h2] at h
      exact List.mem_cons_of_mem _ (ih h)

theorem mapGet_isSome_iff (s : List (LocalHostname × Nat)) (k : LocalHostname) :
    (mapGet s k).isSome = true ↔ k ∈ s.map Prod.fst := by
  induction s with
  | nil => simp [mapGet]
  | cons p rest ih =>
    obtain ⟨k2, v2⟩ := p
    by_cases h : k2 = k
    · subst h
      rw [mapGet_cons_eq]
      simp
    · rw [mapGet_cons_ne h]
      rw [ih]
      simp [List.mem_cons, Ne.symm h]

theorem countKey_eq_zero (s : List (LocalHostname × Nat)) (k : LocalHostname)
    (h : k ∉ s.map Prod.fst) : countKey s k = 0 := by
  rw [countKey, List.countP_eq_zero]
  intro p hp
  simp only [beq_iff_eq]
  intro he
  exact h (he ▸ List.mem_map_of_mem Prod.fst hp)

theorem countKey_eq_one (s : List (LocalHostname × Nat)) (k : LocalHostname)
    (hn : nodupKeys s) (hmem : k ∈ s.map Prod.fst) : countKey s k = 1 := by
  induction s with
  | nil => simp at hmem
  | cons p rest ih =>
    obtain ⟨k2, v2⟩ := p
    simp only [nodupKeys, List.map_cons, List.nodup_cons] at hn
    by_cases h : k2 = k
    · subst h
      have h0 : countKey rest k2 = 0 := countKey_eq_zero rest k2 hn.1
      simp only [countKey, List.countP_cons] at h0 ⊢
      simp only [beq_self_eq_true, if_true]
      omega
    · simp only [List.map_cons, List.mem_cons] at hmem
      rcases hmem with hmem | hmem
      · exact absurd hmem.symm h
      · have h1 := ih hn.2 hmem
        rw [countKey, List.countP_cons]
        rw [countKey] at h1
        simp only [beq_iff_eq, h, if_false]
        omega
theorem shutdownAll_eq_map (s : List (LocalHostname × Nat)) :
    shutdownAll s = s.map fun p => AdvCall.shutdown p.2 := by
  induction s with
  | nil => rfl
  | cons p rest ih => cases p; simp [shutdownAll, ih]

/-- C8: on shutdown with N records in the store, exactly N shutdown calls
are appended to the trace, one per stored record in iteration order, and
every stored record's handle is among them. -/
theorem C8_shutdown_all (w : World) :
    (unregisterAllHostnames w).trace = w.trace ++ w.servers.map (fun p => AdvCall.shutdown p.2) ∧
    (unregisterAllHostnames w).trace.length = w.trace.length + w.servers.length ∧
    ∀ p ∈ w.servers, AdvCall.shutdown p.2 ∈ (unregisterAllHostnames w).trace := by
  refine ⟨by simp [unregisterAllHostnames, shutdownAll_eq_map], ?_, ?_⟩
  · simp [unregisterAllHostnames, shutdownAll_eq_map]
  · intro p hp
    simp only [unregisterAllHostnames, shutdownAll_eq_map, List.mem_append]
    exact Or.inr (List.mem_map_of_mem _ hp)

/-- C8 witness: the theorem applied to a concrete two-record world. -/
theorem C8_shutdown_all_witness :
    (unregisterAllHostnames ⟨[(keyBad, 0), (keyGood, 1)], 2, []⟩).trace =
      [AdvCall.shutdown 0, AdvCall.shutdown 1] ∧
    AdvCall.shutdown 1 ∈ (unregisterAllHostnames ⟨[(keyBad, 0), (keyGood, 1)], 2, []⟩).trace := by
  have h := C8_shutdown_all ⟨[(keyBad, 0), (keyGood, 1)], 2, []⟩
  exact ⟨h.1, h.2.2 (keyGood, 1) (by decide)⟩

/- The Update handler. -/

/-- C1: the claim says Update diffs the old hostname set against the new
one and re-registers on a difference.  Line 83 of the source extracts
both lists from the old object, so the handler never observes a
difference and never performs any register or unregister call: for every
oracle, pair of objects and world it either crashes during extraction or
returns the world unchanged, and on the concrete failing input (old
hostname a, new hostname b) it performs zero calls. -/
theorem C1_update_ignores_new_object :
    (∀ ok oldObj newObj w, updateFunc ok oldObj newObj w = none ∨
        updateFunc ok oldObj newObj w = some w) ∧
    updateFunc okTrue ingA ingB ⟨[(⟨false, "a"⟩, 0)], 1, []⟩ =
      some ⟨[(⟨false, "a"⟩, 0)], 1, []⟩ := by
  constructor
  · intro ok oldObj newObj w
    cases h : getIngressHostnames oldObj with
    | none => left; simp [updateFunc, h]
    | some p =>
      obtain ⟨hs, ip⟩ := p
      right; simp [updateFunc, h]
  · decide

/- The Add handler. -/

/-- C2 counterexample: the claim says the keys are pre-checked so the
second identical Add is a no-op.  Processing Add twice for the same
one-hostname Ingress leaves one store entry but issues two successful
register calls: there is no pre-check. -/
theorem C2_counterexample :
    (runEvents okTrue [WatchEvent.add ingDB, WatchEvent.add ingDB] emptyWorld).map
      (fun w => (countKey w.servers keyDB, regOKCountKey w.trace keyDB)) = some (1, 2) := by
  decide

/-- C4 counterexample: the claim says every successfully registered
handle is stored or shut down.  After two Adds of the same Ingress the
full final state shows handle 0 was obtained from a successful register
call, is no longer stored (handle 1 overwrote it) and was never shut
down: it is orphaned. -/
theorem C4_counterexample :
    runEvents okTrue [WatchEvent.add ingDB, WatchEvent.add ingDB] emptyWorld =
      some ⟨[(keyDB, 1)], 2,
        [AdvCall.registerOK keyDB 80 "10.0.0.2" 0,
         AdvCall.registerOK keyDB 80 "10.0.0.2" 1]⟩ := by
  decide

/- Trace counting lemmas. -/

theorem sdCount_append (tr tr2 : List AdvCall) (h : Nat) :
    sdCount (tr ++ tr2) h = sdCount tr h + sdCount tr2 h := by
  simp [sdCount, List.countP_append]

theorem sdCount_singleton_sd (h0 h : Nat) :
    sdCount [AdvCall.shutdown h0] h = if h0 = h then 1 else 0 := by
  by_cases he : h0 = h <;> simp [sdCount, List.countP_cons, he]

theorem sdCount_singleton_regOK (k : LocalHostname) (port : Nat) (ip : String) (hd h : Nat) :
    sdCount [AdvCall.registerOK k port ip hd] h = 0 := by
  simp [sdCount, List.countP_cons]

theorem sdCount_singleton_regFail (k : LocalHostname) (port : Nat) (ip : String) (h : Nat) :
    sdCount [AdvCall.registerFail k port ip] h = 0 := by
  simp [sdCount, List.countP_cons]

theorem regOKCountKey_append (tr tr2 : List AdvCall) (k : LocalHostname) :
    regOKCountKey (tr ++ tr2) k = regOKCountKey tr k + regOKCountKey tr2 k := by
  simp [regOKCountKey, List.countP_append]

theorem regOKCountKey_singleton_regOK (k2 k : LocalHostname) (port : Nat) (ip : String) (hd : Nat) :
    regOKCountKey [AdvCall.registerOK k2 port ip hd] k = if k2 = k then 1 else 0 := by
  by_cases he : k2 = k <;> simp [regOKCountKey, List.countP_cons, he]

theorem regOKCountKey_singleton_regFail (k2 k : LocalHostname) (port : Nat) (ip : String) :
    regOKCountKey [AdvCall.registerFail k2 port ip] k = 0 := by
  simp [regOKCountKey, List.countP_cons]

theorem regOKCountKey_singleton_sd (h : Nat) (k : LocalHostname) :
    regOKCountKey [AdvCall.shutdown h] k = 0 := by
  simp [regOKCountKey, List.countP_cons]

/- Unfolding lemmas for the register and unregister loops. -/

theorem registerHostnames_nil (ok : LocalHostname → Bool) (ip : Option String) (w : World) :
    registerHostnames ok ip [] w = w := rfl

theorem registerHostnames_cons_ok {ok : LocalHostname → Bool} {ip : Option String}
    {l : LocalHostname} {rest : List LocalHostname} {w : World} (h : ok l = true) :
    registerHostnames ok ip (l :: rest) w =
      registerHostnames ok ip rest
        ⟨mapInsert w.servers l w.nextHandle, w.nextHandle + 1,
         w.trace ++ [AdvCall.registerOK l (portOf l) (ipString ip) w.nextHandle]⟩ := by
  simp [registerHostnames, h]

theorem registerHostnames_cons_fail {ok : LocalHostname → Bool} {ip : Option String}
    {l : LocalHostname} {rest : List LocalHostname} {w : World} (h : ok l = false) :
    registerHostnames ok ip (l :: rest) w =
      registerHostnames ok ip rest
        ⟨w.servers, w.nextHandle,
         w.trace ++ [AdvCall.registerFail l (portOf l) (ipString ip)]⟩ := by
  simp [registerHostnames, h]

theorem unregisterHostnames_nil (w : World) : unregisterHostnames [] w = w := rfl

theorem unregisterHostnames_cons_some {l : LocalHostname} {rest : List LocalHostname}
    {w : World} {hd : Nat} (h : mapGet w.servers l = some hd) :
    unregisterHostnames (l :: rest) w =
      unregisterHostnames rest
        ⟨mapErase w.servers l, w.nextHandle, w.trace ++ [AdvCall.shutdown hd]⟩ := by
  simp [unregisterHostnames, h]

theorem unregisterHostnames_cons_none {l : LocalHostname} {rest : List LocalHostname}
    {w : World} (h : mapGet w.servers l = none) :
    unregisterHostnames (l :: rest) w = unregisterHostnames rest w := by
  simp [unregisterHostnames, h]

/- Lemmas about the register loop. -/

theorem reg_trace_mono (ok : LocalHostname → Bool) (ip : Option String)
    (hs : List LocalHostname) (w : World) (c : AdvCall) (hc : c ∈ w.trace) :
    c ∈ (registerHostnames ok ip hs w).trace := by
  induction hs generalizing w with
  | nil => exact hc
  | cons l rest ih =>
    cases hol : ok l with
    | true =>
      rw [registerHostnames_cons_ok hol]
      exact ih _ (List.mem_append_left _ hc)
    | false =>
      rw [registerHostnames_cons_fail hol]
      exact ih _ (List.mem_append_left _ hc)

theorem reg_mapGet_isSome (ok : LocalHostname → Bool) (ip : Option String)
    (hs : List LocalHostname) (w : World) (k : LocalHostname) :
    (mapGet (registerHostnames ok ip hs w).servers k).isSome = true ↔
      (k ∈ hs ∧ ok k = true) ∨ (mapGet w.servers k).isSome = true := by
  induction hs generalizing w with
  | nil => simp [registerHostnames_nil]
  | cons l rest ih =>
    cases hol : ok l with
    | true =>
      rw [registerHostnames_cons_ok hol, ih]
      constructor
      · rintro (⟨hmem, hok⟩ | hsome)
        · exact Or.inl ⟨List.mem_cons_of_mem _ hmem, hok⟩
        · by_cases hkl : k = l
          · subst hkl
            exact Or.inl ⟨List.mem_cons_self _ _, hol⟩
          · rw [mapGet_insert_ne w.servers l k w.nextHandle hkl] at hsome
            exact Or.inr hsome
      · rintro (⟨hmem, hok⟩ | hsome)
        · rcases List.mem_cons.mp hmem with rfl | hmem2
          · right
            rw [mapGet_insert_self]
            rfl
          · exact Or.inl ⟨hmem2, hok⟩
        · right
          by_cases hkl : k = l
          · subst hkl
            rw [mapGet_insert_self]
            rfl
          · rw [mapGet_insert_ne w.servers l k w.nextHandle hkl]
            exact hsome
    | false =>
      rw [registerHostnames_cons_fail hol, ih]
      constructor
      · rintro (⟨hmem, hok⟩ | hsome)
        · exact Or.inl ⟨List.mem_cons_of_mem _ hmem, hok⟩
        · exact Or.inr hsome
      · rintro (⟨hmem, hok⟩ | hsome)
        · rcases List.mem_cons.mp hmem with rfl | hmem2
          · rw [hol] at hok
            cases hok
          · exact Or.inl ⟨hmem2, hok⟩
        · exact Or.inr hsome

theorem reg_mapGet_okFalse (ok : LocalHostname → Bool) (ip : Option String)
    (hs : List LocalHostname) (w : World) (k : LocalHostname) (hk : ok k = false) :
    mapGet (registerHostnames ok ip hs w).servers k = mapGet w.servers k := by
  induction hs generalizing w with
  | nil => rfl
  | cons l rest ih =>
    cases hol : ok l with
    | true =>
      have hkl : k ≠ l := by
        intro he
        subst he
        rw [hol] at hk
        cases hk
      rw [registerHostnames_cons_ok hol, ih]
      exact mapGet_insert_ne w.servers l k w.nextHandle hkl
    | false =>
      rw [registerHostnames_cons_fail hol, ih]

theorem reg_regOKCountKey (ok : LocalHostname → Bool) (ip : Option String)
    (hs : List LocalHostname) (w : World) (k : LocalHostname) :
    regOKCountKey (registerHostnames ok ip hs w).trace k =
      regOKCountKey w.trace k + (if ok k = true then hs.count k else 0) := by
  induction hs generalizing w with
  | nil => simp [registerHostnames_nil]
  | cons l rest ih =>
    cases hol : ok l with
    | true =>
      rw [registerHostnames_cons_ok hol, ih]
      have happ : regOKCountKey
          (w.trace ++ [AdvCall.registerOK l (portOf l) (ipString ip) w.nextHandle]) k =
          regOKCountKey w.trace k + (if l = k then 1 else 0) := by
        rw [regOKCountKey_append, regOKCountKey_singleton_regOK]
      rw [happ]
      by_cases hkl : l = k
      · subst hkl
        rw [if_pos rfl, if_pos hol, if_pos hol]
        have hcnt : (l :: rest).count l = rest.count l + 1 := List.count_cons_self _ _
        omega
      · rw [if_neg hkl]
        by_cases hok : ok k = true
        · rw [if_pos hok, if_pos hok]
          have hcnt : (l :: rest).count k = rest.count k := by
            rw [List.count_cons]
            have hbeq : (l == k) = false := by
              simp [hkl]
            rw [hbeq]
            simp
          omega
        · rw [if_neg hok, if_neg hok]
    | false =>
      rw [registerHostnames_cons_fail hol, ih]
      have happ : regOKCountKey
          (w.trace ++ [AdvCall.registerFail l (portOf l) (ipString ip)]) k =
          regOKCountKey w.trace k := by
        rw [regOKCountKey_append, regOKCountKey_singleton_regFail]
        omega
      rw [happ]
      by_cases hkl : l = k
      · subst hkl
        rw [if_neg (by rw [hol]; exact Bool.false_ne_true),
          if_neg (by rw [hol]; exact Bool.false_ne_true)]
      · by_cases hok : ok k = true
        · rw [if_pos hok, if_pos hok]
          have hcnt : (l :: rest).count k = rest.count k := by
            rw [List.count_cons]
            have hbeq : (l == k) = false := by
              simp [hkl]
            rw [hbeq]
            simp
          omega
        · rw [if_neg hok, if_neg hok]

theorem reg_registerFail_mem (ok : LocalHostname → Bool) (ip : Option String)
    (hs : List LocalHostname) (w : World) (k : LocalHostname)
    (hk : ok k = false) (hmem : k ∈ hs) :
    AdvCall.registerFail k (portOf k) (ipString ip) ∈ (registerHostnames ok ip hs w).trace := by
  induction hs generalizing w with
  | nil => cases hmem
  | cons l rest ih =>
    rcases List.mem_cons.mp hmem with rfl | hmem2
    · rw [registerHostnames_cons_fail hk]
      exact reg_trace_mono _ _ _ _ _
        (List.mem_append_right _ (List.mem_singleton_self _))
    · cases hol : ok l with
      | true =>
        rw [registerHostnames_cons_ok hol]
        exact ih _ hmem2
      | false =>
        rw [registerHostnames_cons_fail hol]
        exact ih _ hmem2

/-- Invariant tying the store to the fresh-handle counter: keys are
unique, stored handles are pairwise distinct, and all are below the
counter. -/
def storeInv (s : List (LocalHostname × Nat)) (nh : Nat) : Prop :=
  nodupKeys s ∧ (s.map Prod.snd).Nodup ∧ ∀ p ∈ s, p.2 < nh

theorem reg_storeInv (ok : LocalHostname → Bool) (ip : Option String)
    (hs : List LocalHostname) (w : World)
    (h : storeInv w.servers w.nextHandle) :
    storeInv (registerHostnames ok ip hs w).servers (registerHostnames ok ip hs w).nextHandle := by
  induction hs generalizing w with
  | nil => exact h
  | cons l rest ih =>
    cases hol : ok l with
    | true =>
      rw [registerHostnames_cons_ok hol]
      apply ih
      show storeInv (mapInsert w.servers l w.nextHandle) (w.nextHandle + 1)
      refine ⟨nodupKeys_mapInsert _ _ _ h.1, sndNodup_mapInsert _ _ _ h.2.1 h.2.2, ?_⟩
      intro p hp
      rcases mem_mapInsert _ _ _ p hp with hh | hh
      · have := h.2.2 p hh
        omega
      · rw [hh]
        omega
    | false =>
      rw [registerHostnames_cons_fail hol]
      exact ih _ h

/- Lemmas about the unregister loop. -/

theorem unreg_nextHandle (hs : List LocalHostname) (w : World) :
    (unregisterHostnames hs w).nextHandle = w.nextHandle := by
  induction hs generalizing w with
  | nil => rfl
  | cons l rest ih =>
    cases hg : mapGet w.servers l with
    | some hd => rw [unregisterHostnames_cons_some hg]; exact ih _
    | none => rw [unregisterHostnames_cons_none hg]; exact ih _

theorem unreg_trace_mono (hs : List LocalHostname) (w : World) (c : AdvCall)
    (hc : c ∈ w.trace) : c ∈ (unregisterHostnames hs w).trace := by
  induction hs generalizing w with
  | nil => exact hc
  | cons l rest ih =>
    cases hg : mapGet w.servers l with
    | some hd =>
      rw [unregisterHostnames_cons_some hg]
      exact ih _ (List.mem_append_left _ hc)
    | none =>
      rw [unregisterHostnames_cons_none hg]
      exact ih _ hc

theorem unreg_servers_sublist (hs : List LocalHostname) (w : World) :
    List.Sublist (unregisterHostnames hs w).servers w.servers := by
  induction hs generalizing w with
  | nil => exact List.Sublist.refl _
  | cons l rest ih =>
    cases hg : mapGet w.servers l with
    | some hd =>
      rw [unregisterHostnames_cons_some hg]
      exact List.Sublist.trans (ih _) (mapErase_sublist _ _)
    | none =>
      rw [unregisterHostnames_cons_none hg]
      exact ih _

theorem unreg_storeInv (hs : List LocalHostname) (w : World)
    (h : storeInv w.servers w.nextHandle) :
    storeInv (unregisterHostnames hs w).servers (unregisterHostnames hs w).nextHandle := by
  have hsub := unreg_servers_sublist hs w
  rw [unreg_nextHandle]
  refine ⟨List.Nodup.sublist (hsub.map Prod.fst) h.1,
    List.Nodup.sublist (hsub.map Prod.snd) h.2.1, ?_⟩
  intro p hp
  exact h.2.2 p (hsub.subset hp)

theorem unreg_mapGet_none (hs : List LocalHostname) (w : World) (k : LocalHostname)
    (h : mapGet w.servers k = none) :
    mapGet (unregisterHostnames hs w).servers k = none := by
  induction hs generalizing w with
  | nil => exact h
  | cons l rest ih =>
    cases hg : mapGet w.servers l with
    | some hd =>
      have hkl : k ≠ l := by
        intro he
        subst he
        rw [h] at hg
        cases hg
      rw [unregisterHostnames_cons_some hg]
      apply ih
      show mapGet (mapErase w.servers l) k = none
      rw [mapGet_erase_ne _ _ _ hkl]
      exact h
    | none =>
      rw [unregisterHostnames_cons_none hg]
      exact ih _ h

theorem unreg_sdCount_of_no_handle (hs : List LocalHostname) (w : World) (h : Nat)
    (hno : ∀ p ∈ w.servers, p.2 ≠ h) :
    sdCount (unregisterHostnames hs w).trace h = sdCount w.trace h := by
  induction hs generalizing w with
  | nil => rfl
  | cons l rest ih =>
    cases hg : mapGet w.servers l with
    | some hd =>
      have hdh : hd ≠ h := hno (l, hd) (mapGet_mem _ _ _ hg)
      rw [unregisterHostnames_cons_some hg]
      have hstep := ih ⟨mapErase w.servers l, w.nextHandle, w.trace ++ [AdvCall.shutdown hd]⟩
        (fun p hp => hno p ((mapErase_sublist w.servers l).subset hp))
      rw [hstep]
      show sdCount (w.trace ++ [AdvCall.shutdown hd]) h = sdCount w.trace h
      rw [sdCount_append, sdCount_singleton_sd, if_neg hdh]
      omega
    | none =>
      rw [unregisterHostnames_cons_none hg]
      exact ih _ hno

theorem unreg_present (hs : List LocalHostname) (w : World) (k : LocalHostname) (hd : Nat)
    (hn : nodupKeys w.servers) (hh : (w.servers.map Prod.snd).Nodup)
    (hget : mapGet w.servers k = some hd) (hmem : k ∈ hs) :
    mapGet (unregisterHostnames hs w).servers k = none ∧
    sdCount (unregisterHostnames hs w).trace hd = sdCount w.trace hd + 1 := by
  induction hs generalizing w with
  | nil => cases hmem
  | cons l rest ih =>
    cases hg : mapGet w.servers l with
    | none =>
      have hkl : k ≠ l := by
        intro he
        subst he
        rw [hget] at hg
        cases hg
      have hmem2 : k ∈ rest := by
        rcases List.mem_cons.mp hmem with he | hm
        · exact absurd he hkl
        · exact hm
      rw [unregisterHostnames_cons_none hg]
      exact ih _ hn hh hget hmem2
    | some hd0 =>
      rw [unregisterHostnames_cons_some hg]
      by_cases hkl : k = l
      · subst hkl
        rw [hget] at hg
        injection hg with hdeq
        subst hdeq
        constructor
        · apply unreg_mapGet_none
          show mapGet (mapErase w.servers k) k = none
          exact mapGet_erase_self _ _ hn
        · have hno : ∀ p ∈ mapErase w.servers k, p.2 ≠ hd := by
            intro p hp he
            have hps : p ∈ w.servers := (mapErase_sublist w.servers k).subset hp
            have hkm : (k, hd) ∈ w.servers := mapGet_mem _ _ _ hget
            have hpk : p = (k, hd) := List.inj_on_of_nodup_map hh hps hkm he
            rw [hpk] at hp
            have hmemk : k ∈ (mapErase w.servers k).map Prod.fst :=
              List.mem_map_of_mem Prod.fst hp
            rw [← mapGet_isSome_iff] at hmemk
            rw [mapGet_erase_self w.servers k hn] at hmemk
            cases hmemk
          have hstep := unreg_sdCount_of_no_handle rest
            ⟨mapErase w.servers k, w.nextHandle, w.trace ++ [AdvCall.shutdown hd]⟩ hd hno
          rw [hstep]
          show sdCount (w.trace ++ [AdvCall.shutdown hd]) hd = sdCount w.trace hd + 1
          rw [sdCount_append, sdCount_singleton_sd, if_pos rfl]
      · have hmem2 : k ∈ rest := by
          rcases List.mem_cons.mp hmem with he | hm
          · exact absurd he hkl
          · exact hm
        have hget2 : mapGet (mapErase w.servers l) k = some hd := by
          rw [mapGet_erase_ne _ _ _ hkl]
          exact hget
        have hdne : hd0 ≠ hd := by
          intro he
          subst he
          have h1 : (l, hd0) ∈ w.servers := mapGet_mem _ _ _ hg
          have h2 : (k, hd0) ∈ w.servers := mapGet_mem _ _ _ hget
          have heq : (l, hd0) = (k, hd0) := List.inj_on_of_nodup_map hh h1 h2 rfl
          exact hkl (congrArg Prod.fst heq).symm
        have hsub := mapErase_sublist w.servers l
        have hstep := ih ⟨mapErase w.servers l, w.nextHandle, w.trace ++ [AdvCall.shutdown hd0]⟩
          (List.Nodup.sublist (hsub.map Prod.fst) hn)
          (List.Nodup.sublist (hsub.map Prod.snd) hh)
          hget2 hmem2
        refine ⟨hstep.1, ?_⟩
        rw [hstep.2]
        show sdCount (w.trace ++ [AdvCall.shutdown hd0]) hd + 1 = sdCount w.trace hd + 1
        rw [sdCount_append, sdCount_singleton_sd, if_neg hdne]

theorem unreg_new_shutdown (hs : List LocalHostname) (w : World) (h : Nat)
    (hn : nodupKeys w.servers)
    (hne : sdCount (unregisterHostnames hs w).trace h ≠ sdCount w.trace h) :
    ∃ k, k ∈ hs ∧ mapGet w.servers k = some h := by
  induction hs generalizing w with
  | nil => exact absurd rfl hne
  | cons l rest ih =>
    cases hg : mapGet w.servers l with
    | none =>
      rw [unregisterHostnames_cons_none hg] at hne
      obtain ⟨k, hk1, hk2⟩ := ih w hn hne
      exact ⟨k, List.mem_cons_of_mem _ hk1, hk2⟩
    | some hd0 =>
      by_cases hdh : hd0 = h
      · subst hdh
        exact ⟨l, List.mem_cons_self _ _, hg⟩
      · rw [unregisterHostnames_cons_some hg] at hne
        have htr : sdCount (w.trace ++ [AdvCall.shutdown hd0]) h = sdCount w.trace h := by
          rw [sdCount_append, sdCount_singleton_sd, if_neg hdh]
          omega
        have hne2 : sdCount (unregisterHostnames rest
            ⟨mapErase w.servers l, w.nextHandle, w.trace ++ [AdvCall.shutdown hd0]⟩).trace h ≠
            sdCount (w.trace ++ [AdvCall.shutdown hd0]) h := by
          rw [htr]
          exact hne
        have hsub := mapErase_sublist w.servers l
        obtain ⟨k, hk1, hk2⟩ := ih _ (List.Nodup.sublist (hsub.map Prod.fst) hn) hne2
        have hkl : k ≠ l := by
          intro he
          subst he
          have hnone := mapGet_erase_self w.servers k hn
          rw [show mapGet (⟨mapErase w.servers k, w.nextHandle,
            w.trace ++ [AdvCall.shutdown hd0]⟩ : World).servers k =
            mapGet (mapErase w.servers k) k from rfl] at hk2
          rw [hnone] at hk2
          cases hk2
        rw [show mapGet (⟨mapErase w.servers l, w.nextHandle,
          w.trace ++ [AdvCall.shutdown hd0]⟩ : World).servers k =
          mapGet (mapErase w.servers l) k from rfl] at hk2
        rw [mapGet_erase_ne _ _ _ hkl] at hk2
        exact ⟨k, List.mem_cons_of_mem _ hk1, hk2⟩

/- Lemmas about the event handlers and the event loop. -/

theorem updateFunc_eq (ok : LocalHostname → Bool) (oldObj newObj : Ingress) (w : World) :
    updateFunc ok oldObj newObj w = none ∨ updateFunc ok oldObj newObj w = some w := by
  cases h : getIngressHostnames oldObj with
  | none => left; simp [updateFunc, h]
  | some p =>
    obtain ⟨hs, ip⟩ := p
    right
    simp [updateFunc, h]

theorem step_isSome_indep (ok ok2 : LocalHostname → Bool) (e : WatchEvent) (w : World) :
    (stepEvent ok e w).isSome = (stepEvent ok2 e w).isSome := by
  cases e with
  | add obj =>
    simp only [stepEvent, addFunc]
    cases hext : getIngressHostnames obj with
    | none => rfl
    | some p =>
      obtain ⟨hs, ip⟩ := p
      rfl
  | delete obj => rfl
  | update o n =>
    simp only [stepEvent, updateFunc]
    cases hext : getIngressHostnames o with
    | none => rfl
    | some p =>
      obtain ⟨hs, ip⟩ := p
      have hcc : ¬(hs ≠ hs) := fun hc => hc rfl
      simp [hcc]

theorem step_storeInv (ok : LocalHostname → Bool) (e : WatchEvent) (w w2 : World)
    (hstep : stepEvent ok e w = some w2)
    (h : storeInv w.servers w.nextHandle) : storeInv w2.servers w2.nextHandle := by
  cases e with
  | add obj =>
    simp only [stepEvent, addFunc] at hstep
    cases hext : getIngressHostnames obj with
    | none =>
      rw [hext] at hstep
      cases hstep
    | some p =>
      obtain ⟨hs, ip⟩ := p
      rw [hext] at hstep
      injection hstep with hw
      subst hw
      exact reg_storeInv ok ip hs w h
  | delete obj =>
    simp only [stepEvent, deleteFunc] at hstep
    cases hext : getIngressHostnames obj with
    | none =>
      rw [hext] at hstep
      cases hstep
    | some p =>
      obtain ⟨hs, ip⟩ := p
      rw [hext] at hstep
      injection hstep with hw
      subst hw
      exact unreg_storeInv hs w h
  | update o n =>
    rcases updateFunc_eq ok o n w with he | he
    · simp only [stepEvent] at hstep
      rw [he] at hstep
      cases hstep
    · simp only [stepEvent] at hstep
      rw [he] at hstep
      injection hstep with hw
      subst hw
      exact h

theorem run_storeInv (ok : LocalHostname → Bool) (es : List WatchEvent) (w w2 : World)
    (hrun : runEvents ok es w = some w2)
    (h : storeInv w.servers w.nextHandle) : storeInv w2.servers w2.nextHandle := by
  induction es generalizing w with
  | nil =>
    simp only [runEvents] at hrun
    injection hrun with hw
    subst hw
    exact h
  | cons e es ih =>
    simp only [runEvents] at hrun
    cases hstep : stepEvent ok e w with
    | none =>
      rw [hstep] at hrun
      cases hrun
    | some w3 =>
      rw [hstep] at hrun
      exact ih _ hrun (step_storeInv ok e w w3 hstep h)

theorem storeInv_emptyWorld : storeInv emptyWorld.servers emptyWorld.nextHandle := by
  refine ⟨?_, ?_, ?_⟩
  · simp [emptyWorld, nodupKeys]
  · simp [emptyWorld]
  · intro p hp
    simp [emptyWorld] at hp

/- Remaining claims about the reconciliation loop. -/

/-- C2 amended: processing an Add event registers every extracted
hostname unconditionally (no pre-check), overwriting any stored handle;
processing the same Add twice under an always-succeeding advertiser
still leaves exactly one store entry per extracted hostname, but the
trace shows two successful register calls per occurrence of the hostname
rather than one. -/
theorem C2_add_twice_register_calls (i : Ingress) (hs : List LocalHostname) (ip : Option String)
    (w2 : World) (hext : getIngressHostnames i = some (hs, ip))
    (hrun : runEvents okTrue [WatchEvent.add i, WatchEvent.add i] emptyWorld = some w2) :
    nodupKeys w2.servers ∧
    ∀ k, k ∈ hs → countKey w2.servers k = 1 ∧ regOKCountKey w2.trace k = 2 * hs.count k := by
  simp only [runEvents, stepEvent, addFunc, hext] at hrun
  injection hrun with hw
  subst hw
  have hinv1 := reg_storeInv okTrue ip hs emptyWorld storeInv_emptyWorld
  have hinv2 := reg_storeInv okTrue ip hs (registerHostnames okTrue ip hs emptyWorld) hinv1
  refine ⟨hinv2.1, ?_⟩
  intro k hmem
  constructor
  · apply countKey_eq_one _ _ hinv2.1
    rw [← mapGet_isSome_iff]
    exact (reg_mapGet_isSome okTrue ip hs _ k).mpr (Or.inl ⟨hmem, rfl⟩)
  · rw [reg_regOKCountKey, reg_regOKCountKey]
    have h0 : regOKCountKey emptyWorld.trace k = 0 := rfl
    rw [h0]
    have hc : (if okTrue k = true then hs.count k else 0) = hs.count k := if_pos rfl
    rw [hc]
    omega

/-- C2 witness: the amended theorem applied to a concrete Ingress added
twice. -/
theorem C2_add_twice_register_calls_witness :
    nodupKeys ([(keyDB, 1)] : List (LocalHostname × Nat)) ∧
    countKey [(keyDB, 1)] keyDB = 1 ∧
    regOKCountKey [AdvCall.registerOK keyDB 80 "10.0.0.2" 0,
      AdvCall.registerOK keyDB 80 "10.0.0.2" 1] keyDB = 2 * [keyDB].count keyDB := by
  have h := C2_add_twice_register_calls ingDB [keyDB] (some "10.0.0.2")
    ⟨[(keyDB, 1)], 2, [AdvCall.registerOK keyDB 80 "10.0.0.2" 0,
      AdvCall.registerOK keyDB 80 "10.0.0.2" 1]⟩ (by decide) (by decide)
  exact ⟨h.1, (h.2 keyDB (by decide)).1, (h.2 keyDB (by decide)).2⟩

/-- C4 amended: every event sequence preserves the weakened store
invariant: at most one record per key (unique keys) and pairwise
distinct stored handles, and the shutdown pass leaves the store
unchanged.  The original claim's further assertion, that every
successfully registered handle is stored or shut down, is refuted by
C4's counterexample: a register call for a key already present
overwrites the stored handle without shutting it down. -/
theorem C4_store_invariant (ok : LocalHostname → Bool) (es : List WatchEvent) (w2 : World)
    (hrun : runEvents ok es emptyWorld = some w2) :
    nodupKeys w2.servers ∧ (w2.servers.map Prod.snd).Nodup ∧
    (unregisterAllHostnames w2).servers = w2.servers := by
  have h := run_storeInv ok es emptyWorld w2 hrun storeInv_emptyWorld
  exact ⟨h.1, h.2.1, rfl⟩

/-- C4 witness: the amended theorem applied to a concrete run. -/
theorem C4_store_invariant_witness :
    nodupKeys ((⟨[(keyDB, 0)], 1, [AdvCall.registerOK keyDB 80 "10.0.0.2" 0]⟩ : World).servers) ∧
    (((⟨[(keyDB, 0)], 1, [AdvCall.registerOK keyDB 80 "10.0.0.2" 0]⟩ : World).servers.map
      Prod.snd).Nodup) :=
  have h := C4_store_invariant okTrue [WatchEvent.add ingDB]
    ⟨[(keyDB, 0)], 1, [AdvCall.registerOK keyDB 80 "10.0.0.2" 0]⟩ (by decide)
  ⟨h.1, h.2.1⟩

/-- C7: processing a Delete event unregisters and removes every
extracted hostname present in the store, with exactly one shutdown call
for its handle, and any handle whose shutdown count changed belongs to
an extracted hostname that was present in the store: no unregister call
is made for an absent hostname, so no handle is shut down twice. -/
theorem C7_delete_exact (i : Ingress) (hs : List LocalHostname) (ip : Option String)
    (w w2 : World) (hext : getIngressHostnames i = some (hs, ip))
    (hdel : deleteFunc i w = some w2)
    (hn : nodupKeys w.servers) (hh : (w.servers.map Prod.snd).Nodup) :
    (∀ k hd, mapGet w.servers k = some hd → k ∈ hs →
        mapGet w2.servers k = none ∧ sdCount w2.trace hd = sdCount w.trace hd + 1) ∧
    (∀ hd, sdCount w2.trace hd ≠ sdCount w.trace hd →
        ∃ k, k ∈ hs ∧ mapGet w.servers k = some hd) := by
  simp only [deleteFunc, hext] at hdel
  injection hdel with hw
  subst hw
  exact ⟨fun k hd hget hmem => unreg_present hs w k hd hn hh hget hmem,
    fun hd hne => unreg_new_shutdown hs w hd hn hne⟩

/-- C7 witness: the theorem applied to a concrete Delete of a stored
hostname. -/
theorem C7_delete_exact_witness :
    mapGet (⟨[(keyGood, 7)], 8, [AdvCall.shutdown 5]⟩ : World).servers keyDB = none ∧
    sdCount (⟨[(keyGood, 7)], 8, [AdvCall.shutdown 5]⟩ : World).trace 5 =
      sdCount (⟨[(keyDB, 5), (keyGood, 7)], 8, []⟩ : World).trace 5 + 1 :=
  (C7_delete_exact ingDB [keyDB] (some "10.0.0.2")
    ⟨[(keyDB, 5), (keyGood, 7)], 8, []⟩
    ⟨[(keyGood, 7)], 8, [AdvCall.shutdown 5]⟩
    (by decide) (by decide) (by unfold nodupKeys; decide) (by decide)).1 keyDB 5
    (by decide) (by decide)

/-- C9: a failed register call for one hostname leaves that key's store
entry unchanged, records the failure, does not prevent the remaining
hostnames of the same event from being registered, and does not change
whether any subsequent event can be processed. -/
theorem C9_register_failure_isolated (ok : LocalHostname → Bool) (ip : Option String)
    (hs : List LocalHostname) (w : World) (k : LocalHostname) (hk : ok k = false) :
    mapGet (registerHostnames ok ip hs w).servers k = mapGet w.servers k ∧
    (k ∈ hs → AdvCall.registerFail k (portOf k) (ipString ip) ∈
      (registerHostnames ok ip hs w).trace) ∧
    (∀ k2, k2 ∈ hs → ok k2 = true →
      (mapGet (registerHostnames ok ip hs w).servers k2).isSome = true) ∧
    (∀ e w3, (stepEvent ok e w3).isSome = (stepEvent okTrue e w3).isSome) :=
  ⟨reg_mapGet_okFalse ok ip hs w k hk,
    fun hmem => reg_registerFail_mem ok ip hs w k hk hmem,
    fun k2 hmem hok => (reg_mapGet_isSome ok ip hs w k2).mpr (Or.inl ⟨hmem, hok⟩),
    fun e w3 => step_isSome_indep ok okTrue e w3⟩

/-- C9 witness: the theorem applied to an oracle failing on one concrete
hostname, with a second hostname succeeding in the same event. -/
theorem C9_register_failure_isolated_witness :
    mapGet (registerHostnames okNotBad (some "10.0.0.9") [keyBad, keyGood] emptyWorld).servers
      keyBad = mapGet emptyWorld.servers keyBad ∧
    AdvCall.registerFail keyBad (portOf keyBad) (ipString (some "10.0.0.9")) ∈
      (registerHostnames okNotBad (some "10.0.0.9") [keyBad, keyGood] emptyWorld).trace ∧
    (mapGet (registerHostnames okNotBad (some "10.0.0.9") [keyBad, keyGood]
      emptyWorld).servers keyGood).isSome = true ∧
    (stepEvent okNotBad (WatchEvent.delete ingDB) emptyWorld).isSome =
      (stepEvent okTrue (WatchEvent.delete ingDB) emptyWorld).isSome := by
  have h := C9_register_failure_isolated okNotBad (some "10.0.0.9") [keyBad, keyGood]
    emptyWorld keyBad (by decide)
  exact ⟨h.1, h.2.1 (by decide), h.2.2.1 keyGood (by decide) (by decide), h.2.2.2 _ _⟩

end IngressZeroconf
